import Mathlib

/-!
Verification of the Equity-News-Research backend (`backened/backend.py`).

Strings are embedded as `List Char`.  Python floats are modelled by `ℚ`;
no property proved here depends on numeric vector values, only on shapes
and counts.  External collaborators (faiss, numpy, the embedder, the
UTF-8 codec of the Python runtime) are modelled at their documented
interface contracts; everything else is a direct translation of the
source.
-/

namespace Backend

/-- CHUNK_SIZE from the CONFIG block. -/
def CHUNK_SIZE : ℕ := 800

/-- CHUNK_OVERLAP from the CONFIG block. -/
def CHUNK_OVERLAP : ℕ := 150

/-- Python whitespace test used by `str.strip` and the regex class `\s`
(ASCII part; the exotic unicode whitespace code points play no role in
any claim). -/
def isWsC (c : Char) : Bool :=
  c == ' ' || c == '\t' || c == '\n' || c == '\r' || c == '\x0b' || c == '\x0c'

/-- Sentence-terminal punctuation of the lookbehind in
`re.split(r'(?<=[.!?])\s+', ...)`. -/
def isPunctC (c : Char) : Bool :=
  c == '.' || c == '!' || c == '?'

/-- Python `str.strip()`: remove leading and trailing whitespace. -/
def stripChars (l : List Char) : List Char :=
  ((l.dropWhile isWsC).reverse.dropWhile isWsC).reverse

/-- One-character-at-a-time scanner implementing
`re.split(r'(?<=[.!?])\s+', s)`: a split point is a maximal whitespace
run whose preceding character is sentence-terminal punctuation.
`skipping` records being inside the matched whitespace run, `prevPunct`
whether the previously scanned character was `.`, `!` or `?`, and `acc`
holds the current unit reversed. -/
def sentGo (skipping prevPunct : Bool) (acc : List Char) : List Char → List (List Char)
  | [] => [acc.reverse]
  | c :: cs =>
    if skipping then
      if isWsC c then sentGo true false [] cs
      else sentGo false (isPunctC c) [c] cs
    else if prevPunct && isWsC c then
      acc.reverse :: sentGo true false [] cs
    else
      sentGo false (isPunctC c) (c :: acc) cs

/-- `re.split(r'(?<=[.!?])\s+', s)` from `split_text`. -/
def sentSplit (s : List Char) : List (List Char) :=
  sentGo false false [] s

/-- The window loop of `split_text` for an oversize unit `s`:
`for i in range(0, len(s), step): chunks.append(s[i:i+size])`.
Faithful to Python for `step ≥ 1`, which holds at every use below
(`step = size - overlap` with `overlap < size`). -/
def windows (s : List Char) (size step : ℕ) : List (List Char) :=
  (List.range ((s.length + step - 1) / step)).map (fun j => (s.drop (j * step)).take size)

/-- The accumulation loop of `split_text` over the sentence units:
buffer `cur`, emitted chunks `chunks`. -/
def splitLoop (size step : ℕ) : List (List Char) → List Char → List (List Char) → List (List Char)
  | chunks, cur, [] => if cur.isEmpty then chunks else chunks ++ [cur]
  | chunks, cur, s :: rest =>
    if cur.length + s.length ≤ size then
      splitLoop size step chunks (stripChars (cur ++ ' ' :: s)) rest
    else
      let chunks1 := if cur.isEmpty then chunks else chunks ++ [cur]
      if size < s.length then
        splitLoop size step (chunks1 ++ windows s size step) [] rest
      else
        splitLoop size step chunks1 s rest

/-- `split_text(text, size, overlap)` from the source: empty text gives
`[]`; otherwise the stripped text is split into sentence units and the
units are folded through the accumulation loop. -/
def splitText (text : List Char) (size overlap : ℕ) : List (List Char) :=
  if text.isEmpty then [] else
  splitLoop size (size - overlap) [] [] (sentSplit (stripChars text))

/-- One metadata record as built by the ingestion endpoints: the Python
dict with keys title, url, chunk_id, text and the query-time score.
Floats are modelled by `ℚ`. -/
structure MetaRec where
  title : Option String
  url : Option String
  chunk_id : String
  text : List Char
  score : Option ℚ
deriving DecidableEq

/-- A `faiss.IndexFlatIP` object: its fixed dimension `d` and the stored
(already normalized) vectors in insertion order.  `float32` entries are
modelled by `ℚ`. -/
structure FaissIndex where
  d : ℕ
  vecs : List (List ℚ)
deriving DecidableEq

/-- The `ntotal` attribute of a faiss index. -/
def FaissIndex.ntotal (ix : FaissIndex) : ℕ :=
  ix.vecs.length

/-- Library contract of `faiss.Index.add`: raises unless every row has
width `d` (the C++ assertion `d == this.d`); on success the rows are
appended in order.  faiss is an external dependency, so only this
documented interface is modelled. -/
def FaissIndex.addRaw (ix : FaissIndex) (vs : List (List ℚ)) : Except String FaissIndex :=
  if vs.all (fun v => v.length == ix.d) then
    .ok { ix with vecs := ix.vecs ++ vs }
  else
    .error "faiss assertion d == this.d failed"

/-- Models `np.linalg.norm(row) + 1e-8` as a rational: the sum of squares
plus the epsilon.  The square root taken by numpy is omitted because
`ℚ` has no square root; no claim proved below depends on the numeric
values of vector entries, only on row shapes, which this scaling
preserves exactly as the real normalization does. -/
def normScale (v : List ℚ) : ℚ :=
  v.foldl (fun a x => a + x * x) 0 + 1 / 100000000

/-- One row of `embs / (np.linalg.norm(embs, axis=1, keepdims=True) + 1e-8)`. -/
def normalizeRow (v : List ℚ) : List ℚ :=
  v.map (fun x => x / normScale v)

/-- Row-wise normalization of the embedding matrix. -/
def normalizeRows (embs : List (List ℚ)) : List (List ℚ) :=
  embs.map normalizeRow

/-- The in-memory state of `FaissStore`: `index` (None before the first
add/load), the metadata list, and the remembered dimension. -/
structure FaissStore where
  index : Option FaissIndex
  metadata : List MetaRec
  dim : Option ℕ
deriving DecidableEq

/-- The number of stored vectors (`ntotal`, 0 when the index is None). -/
def FaissStore.vecCount (st : FaissStore) : ℕ :=
  match st.index with
  | none => 0
  | some ix => ix.ntotal

/-- The spec invariant: as many stored vectors as metadata records. -/
def storeInv (st : FaissStore) : Prop :=
  st.vecCount = st.metadata.length

instance (st : FaissStore) : Decidable (storeInv st) := by
  unfold storeInv; infer_instance

/-- `FaissStore.init_if_needed`: a no-op when an index exists, otherwise
fixes `dim` and creates an empty `IndexFlatIP(dim)`. -/
def FaissStore.initIfNeeded (st : FaissStore) (d : ℕ) : FaissStore :=
  match st.index with
  | none => { st with dim := some d, index := some ⟨d, []⟩ }
  | some _ => st

/-- `FaissStore.add(embs, metas)`: returns the post-call state and the
raised exception, if any.  Empty `embs` is an early no-op; otherwise the
index is initialized from `embs.shape[1]` (the width of the rows), the
normalized rows are pushed into faiss, and only on success is the
metadata list extended.  When faiss raises, the partial mutation done by
`init_if_needed` survives on the Python object, which the returned state
reflects. -/
def FaissStore.add (st : FaissStore) (embs : List (List ℚ)) (metas : List MetaRec) :
    FaissStore × Option String :=
  if embs.length == 0 then (st, none) else
  let st1 := st.initIfNeeded (embs.headD []).length
  match st1.index with
  | none => (st1, some "unreachable: init_if_needed left no index")
  | some ix =>
    match ix.addRaw (normalizeRows embs) with
    | .ok ix2 => ({ st1 with index := some ix2, metadata := st1.metadata ++ metas }, none)
    | .error e => (st1, some e)

/-- The result-assembly loop of `FaissStore.search`, given the zipped
`(score, idx)` pairs produced by the faiss call: ids that are negative
or not below `len(self.metadata)` are skipped, every kept id indexes the
metadata list, and each result is a copy of the record with the score
filled in. -/
def searchLoop (metadata : List MetaRec) : List (ℚ × ℤ) → List MetaRec
  | [] => []
  | (score, idx) :: rest =>
    if h : idx < 0 ∨ (metadata.length : ℤ) ≤ idx then
      searchLoop metadata rest
    else
      { metadata.get ⟨idx.toNat, by push_neg at h; omega⟩ with score := some score } ::
        searchLoop metadata rest

/-- `FaissStore.search`: `[]` when the index is None or empty, otherwise
the filter loop over the faiss output.  The `(score, idx)` pairs `raw`
(that is, `zip(D[0], I[0])`) come from the external faiss call, so they
are a parameter here; theorems state faiss's output contract as
hypotheses where they need it. -/
def FaissStore.search (st : FaissStore) (raw : List (ℚ × ℤ)) : List MetaRec :=
  match st.index with
  | none => []
  | some ix => if ix.ntotal == 0 then [] else searchLoop st.metadata raw

/-- `FaissStore.save`: writes the index artifact when an index object
exists (a live faiss index is always truthy) and always writes the
metadata artifact; the in-memory state is untouched.  The returned pair
is the pair of artifacts written. -/
def FaissStore.save (st : FaissStore) : Option FaissIndex × List MetaRec :=
  (st.index, st.metadata)

/-- `FaissStore.load`: replaces the metadata when the metadata artifact
exists on disk, then replaces the index (and takes `dim` from it) when
the index artifact exists; an absent artifact leaves the corresponding
field as it was. -/
def FaissStore.load (st : FaissStore) (metaArt : Option (List MetaRec))
    (ixArt : Option FaissIndex) : FaissStore :=
  let st1 :=
    match metaArt with
    | some ms => { st with metadata := ms }
    | none => st
  match ixArt with
  | some ix => { st1 with index := some ix, dim := some ix.d }
  | none => st1

/-- The store as constructed by `FaissStore.__init__`. -/
def freshStore : FaissStore :=
  ⟨none, [], none⟩

/-- The metadata records built in `ingest` for the chunks of one file
(both the CSV row path and the plain-text path use this shape):
chunk ids are the Python f-string `f"{name}_{ts}_{i}"` over the
positional index `i`. -/
def fileMetas (name : String) (ts : ℕ) (parts : List (List Char)) : List MetaRec :=
  parts.enum.map (fun p =>
    { title := some name
      url := none
      chunk_id := name ++ "_" ++ toString ts ++ "_" ++ toString p.1
      text := p.2
      score := none })

/-- The metadata records built in `ingest_urls` for the chunks of one
URL: chunk ids are `f"url_{ts}_{i}"` — the literal prefix `url_`, the
per-item `int(time.time())`, and the positional index. -/
def urlMetas (u : String) (ts : ℕ) (parts : List (List Char)) : List MetaRec :=
  parts.enum.map (fun p =>
    { title := none
      url := some u
      chunk_id := "url_" ++ toString ts ++ "_" ++ toString p.1
      text := p.2
      score := none })

/-- One item of a `POST /ingest/urls` batch as it reaches the loop body:
the url, the text extracted by trafilatura (`none` models both a failed
fetch and a `None` extraction), and the `int(time.time())` observed when
the item is processed. -/
structure UrlItem where
  url : String
  extracted : Option (List Char)
  ts : ℕ

/-- The metadata records accumulated by one `POST /ingest/urls` batch:
an item whose extraction yields nothing (`None` or the empty, falsy,
string) is skipped with `url_error`; otherwise its text is chunked with
the configured size and overlap and one record per chunk is built. -/
def ingestUrlsMetas (items : List UrlItem) : List MetaRec :=
  items.flatMap (fun it =>
    match it.extracted with
    | none => []
    | some t => if t.isEmpty then [] else urlMetas it.url it.ts (splitText t CHUNK_SIZE CHUNK_OVERLAP))

/-- The HTTP-level outcome of `POST /query`. -/
inductive QueryOutcome where
  | badRequest (code : ℕ) (msg : String)
  | answers (results : List MetaRec)
deriving DecidableEq

/-- `query_endpoint`: raises `HTTPException(400)` exactly when the query
string is falsy (empty); otherwise embeds the query (external call,
represented by the faiss search output `raw`) and returns the search
results.  The store is returned unchanged: nothing in the handler or in
`FaissStore.search` writes to it (results are copies of the stored
records). -/
def queryEndpoint (st : FaissStore) (q : List Char) (raw : List (ℚ × ℤ)) :
    QueryOutcome × FaissStore :=
  if q.isEmpty then (.badRequest 400 "Query missing", st)
  else (.answers (st.search raw), st)

/-- Python tail slice `l[a:]` for an arbitrary integer `a`: a
nonnegative start drops `a` elements, a negative start keeps the last
`-a` elements (clamped at the list ends). -/
def pyTailSlice {α : Type} (l : List α) (a : ℤ) : List α :=
  if 0 ≤ a then l.drop a.toNat else l.drop (l.length - (-a).toNat)

/-- `GET /meta`: `{"total": len(store.metadata), "items": store.metadata[-n:][::-1]}`.
`n` is an unconstrained query integer. -/
def getMeta (st : FaissStore) (n : ℤ) : ℕ × List MetaRec :=
  (st.metadata.length, (pyTailSlice st.metadata (-n)).reverse)

/-- Continuation-byte test for UTF-8: `0x80 ≤ b ≤ 0xBF`. -/
def isContByte (b : Fin 256) : Bool :=
  0x80 ≤ b.val && b.val ≤ 0xBF

/-- CPython's `bytes.decode("utf-8", errors="ignore")`, modelled at the
codec's documented behaviour: well-formed sequences (with the usual
overlong, surrogate and range restrictions) decode to their code point;
on malformed input the offending bytes are dropped — an invalid lead
byte is skipped, and for a rejected or truncated multi-byte sequence the
consumed prefix is dropped and decoding resumes at the offending byte.
The function is total: no byte list makes it fail. -/
def utf8DecodeIgnore : List (Fin 256) → List Char
  | [] => []
  | b :: bs =>
    if b.val < 0x80 then
      Char.ofNat b.val :: utf8DecodeIgnore bs
    else if 0xC2 ≤ b.val ∧ b.val ≤ 0xDF then
      match bs with
      | [] => []
      | c1 :: bs1 =>
        if isContByte c1 then
          Char.ofNat ((b.val - 0xC0) * 64 + (c1.val - 0x80)) :: utf8DecodeIgnore bs1
        else
          utf8DecodeIgnore (c1 :: bs1)
    else if 0xE0 ≤ b.val ∧ b.val ≤ 0xEF then
      match bs with
      | [] => []
      | c1 :: bs1 =>
        if (isContByte c1 && !(b.val == 0xE0 && c1.val < 0xA0)
              && !(b.val == 0xED && 0xA0 ≤ c1.val)) then
          match bs1 with
          | [] => []
          | c2 :: bs2 =>
            if isContByte c2 then
              Char.ofNat ((b.val - 0xE0) * 4096 + (c1.val - 0x80) * 64 + (c2.val - 0x80)) ::
                utf8DecodeIgnore bs2
            else
              utf8DecodeIgnore (c2 :: bs2)
        else
          utf8DecodeIgnore (c1 :: bs1)
    else if 0xF0 ≤ b.val ∧ b.val ≤ 0xF4 then
      match bs with
      | [] => []
      | c1 :: bs1 =>
        if (isContByte c1 && !(b.val == 0xF0 && c1.val < 0x90)
              && !(b.val == 0xF4 && 0x90 ≤ c1.val)) then
          match bs1 with
          | [] => []
          | c2 :: bs2 =>
            if isContByte c2 then
              match bs2 with
              | [] => []
              | c3 :: bs3 =>
                if isContByte c3 then
                  Char.ofNat ((b.val - 0xF0) * 262144 + (c1.val - 0x80) * 4096
                      + (c2.val - 0x80) * 64 + (c3.val - 0x80)) :: utf8DecodeIgnore bs3
                else
                  utf8DecodeIgnore (c3 :: bs3)
            else
              utf8DecodeIgnore (c2 :: bs2)
        else
          utf8DecodeIgnore (c1 :: bs1)
    else
      utf8DecodeIgnore bs
termination_by bs => bs.length
decreasing_by all_goals (simp_all; try omega)

/-- The text obtained by `ingest` for an uploaded file before the
generic chunking path, as a function of the filename dispatch
`name.lower().endswith(...)` (lowercasing modelled per character, the
ASCII-faithful part of `str.lower`): `none` marks the two branches
that delegate to an external extractor (pypdf) or to the CSV row mode;
every other filename takes `b.decode("utf-8", errors="ignore")`. -/
def ingestTextFor (name : List Char) (b : List (Fin 256)) : Option (List Char) :=
  if ".pdf".toList.isSuffixOf (name.map Char.toLower) then none
  else if ".csv".toList.isSuffixOf (name.map Char.toLower) then none
  else some (utf8DecodeIgnore b)

/-- The non-whitespace characters of a string, in order. -/
def nonWs (l : List Char) : List Char :=
  l.filter (fun c => !(isWsC c))

/-- Value of a decimal digit character. -/
def decDigitVal (c : Char) : ℕ :=
  c.toNat - 48

/-- Parse a digit string with accumulator, the left inverse of decimal
rendering. -/
def parseDecFrom (a : ℕ) (ds : List Char) : ℕ :=
  ds.foldl (fun x c => x * 10 + decDigitVal c) a

/-- A sample record for concrete instances. -/
def mRec0 : MetaRec :=
  ⟨none, none, "seed", "seed text".toList, none⟩

/-- A concrete initialized store for the C4 witness. -/
def stC4 : FaissStore :=
  ⟨some ⟨2, [[1, 0]]⟩, [mRec0], some 2⟩

/-- A concrete store holding one record, for witnesses. -/
def stOne : FaissStore :=
  ⟨some ⟨2, [[1, 0]]⟩, [mRec0], some 2⟩

/-! ### Chunker lemmas -/

lemma stripChars_length_le (l : List Char) : (stripChars l).length ≤ l.length := by
  unfold stripChars
  have h1 : (l.dropWhile isWsC).length ≤ l.length := (List.dropWhile_sublist isWsC).length_le
  have h2 : ((l.dropWhile isWsC).reverse.dropWhile isWsC).length ≤
      (l.dropWhile isWsC).reverse.length := (List.dropWhile_sublist isWsC).length_le
  simp only [List.length_reverse] at h2 ⊢
  omega

lemma windows_length_le {s c : List Char} {size step : ℕ} (hc : c ∈ windows s size step) :
    c.length ≤ size := by
  unfold windows at hc
  obtain ⟨j, _, rfl⟩ := List.mem_map.mp hc
  simp [List.length_take]

lemma splitLoop_length_le {size : ℕ} (step : ℕ) :
    ∀ (sents chunks : List (List Char)) (cur : List Char),
      (∀ c ∈ chunks, c.length ≤ size + 1) → cur.length ≤ size + 1 →
      ∀ c ∈ splitLoop size step chunks cur sents, c.length ≤ size + 1 := by
  intro sents
  induction sents with
  | nil =>
    intro chunks cur hch hcur c hc
    unfold splitLoop at hc
    by_cases he : cur.isEmpty
    · simp only [he, if_pos] at hc
      exact hch c hc
    · simp only [he, Bool.false_eq_true, if_false, List.mem_append, List.mem_singleton] at hc
      rcases hc with hc | rfl
      · exact hch c hc
      · exact hcur
  | cons s rest ih =>
    intro chunks cur hch hcur c hc
    unfold splitLoop at hc
    by_cases h1 : cur.length + s.length ≤ size
    · rw [if_pos h1] at hc
      refine ih chunks _ hch ?_ c hc
      have := stripChars_length_le (cur ++ ' ' :: s)
      simp only [List.length_append, List.length_cons] at this
      omega
    · rw [if_neg h1] at hc
      have hch1 : ∀ x ∈ (if cur.isEmpty then chunks else chunks ++ [cur]), x.length ≤ size + 1 := by
        intro x hx
        by_cases he : cur.isEmpty
        · simp only [he, if_pos] at hx
          exact hch x hx
        · simp only [he, Bool.false_eq_true, if_false, List.mem_append,
            List.mem_singleton] at hx
          rcases hx with hx | rfl
          · exact hch x hx
          · exact hcur
      by_cases h2 : size < s.length
      · rw [if_pos h2] at hc
        refine ih _ [] ?_ (by simp) c hc
        intro x hx
        rcases List.mem_append.mp hx with hx | hx
        · exact hch1 x hx
        · exact le_trans (windows_length_le hx) (Nat.le_succ size)
      · rw [if_neg h2] at hc
        exact ih _ s hch1 (by omega) c hc

/-- C1 (corrected): with `size > 0` and `0 ≤ overlap < size`, every chunk
produced by `split_text` has length at most `size + 1` — not `size`: the
buffer check `len(cur) + len(s) <= size` does not count the joining
space inserted by `(cur + " " + s)`, so a buffered chunk can exceed the
configured size by exactly one character.  Windows cut from an oversize
unit are still at most `size` long (they are `take size` slices), so the
uniform bound is `size + 1`. -/
theorem c1_splitText_chunk_bound (text : List Char) (size overlap : ℕ)
    (hs : 0 < size) (ho : overlap < size) :
    ∀ c ∈ splitText text size overlap, c.length ≤ size + 1 := by
  unfold splitText
  by_cases he : text.isEmpty
  · simp [he]
  · simp only [he, Bool.false_eq_true, if_false]
    exact splitLoop_length_le (size - overlap) _ [] [] (by simp) (by simp)

/-- C1 counterexample: at `text = "a. b."`, `size = 4`, `overlap = 0`
(`size > 0`, `0 ≤ overlap < size`), `split_text` returns the single
chunk `"a. b."` of length 5 > 4, refuting the claim that every chunk
has length at most `size`. -/
theorem c1_counterexample :
    ¬ (∀ c ∈ splitText "a. b.".toList 4 0, c.length ≤ 4) := by
  decide

/-- Witness for `c1_splitText_chunk_bound` at a concrete input. -/
theorem c1_witness :
    0 < 4 ∧ 0 < 4 ∧ ∀ c ∈ splitText "a. b.".toList 4 0, c.length ≤ 4 + 1 :=
  ⟨by decide, by decide, c1_splitText_chunk_bound "a. b.".toList 4 0 (by decide) (by decide)⟩

/-! ### Whitespace-normalized reconstruction (C5) -/

lemma nonWs_append (a b : List Char) : nonWs (a ++ b) = nonWs a ++ nonWs b :=
  List.filter_append a b

lemma nonWs_reverse (l : List Char) : nonWs l.reverse = (nonWs l).reverse :=
  List.filter_reverse _ l

lemma nonWs_dropWhile (l : List Char) : nonWs (l.dropWhile isWsC) = nonWs l := by
  induction l with
  | nil => rfl
  | cons c cs ih =>
    by_cases h : isWsC c
    · rw [List.dropWhile_cons, if_pos h, ih]
      unfold nonWs
      rw [List.filter_cons, if_neg (by simp [h])]
    · rw [List.dropWhile_cons, if_neg h]

lemma nonWs_stripChars (l : List Char) : nonWs (stripChars l) = nonWs l := by
  unfold stripChars
  rw [nonWs_reverse, nonWs_dropWhile, nonWs_reverse, List.reverse_reverse, nonWs_dropWhile]

lemma sentGo_flatten_nonWs (cs : List Char) :
    ∀ (skipping prevPunct : Bool) (acc : List Char), (skipping = true → acc = []) →
      nonWs (sentGo skipping prevPunct acc cs).flatten = nonWs acc.reverse ++ nonWs cs := by
  induction cs with
  | nil =>
    intro skipping prevPunct acc _
    simp [sentGo, nonWs]
  | cons c cs ih =>
    intro skipping prevPunct acc hacc
    unfold sentGo
    by_cases hskip : skipping
    · rw [hacc hskip]
      by_cases hws : isWsC c
      · simp only [hskip, if_pos, hws, if_true]
        rw [ih true false [] (by intro; rfl)]
        unfold nonWs
        simp [hws]
      · simp only [hskip, if_true, hws, Bool.false_eq_true, if_false]
        rw [ih false (isPunctC c) [c] (by simp)]
        unfold nonWs
        simp [hws, List.filter_cons]
    · simp only [hskip, Bool.false_eq_true, if_false]
      by_cases hsplit : prevPunct && isWsC c
      · rw [if_pos hsplit]
        have hws : isWsC c = true := by
          revert hsplit
          cases prevPunct <;> cases hh : isWsC c <;> simp
        simp only [List.flatten_cons, nonWs_append]
        rw [ih true false [] (by intro; rfl)]
        unfold nonWs
        simp [hws]
      · rw [if_neg hsplit]
        rw [ih false (isPunctC c) (c :: acc) (by simp)]
        simp only [List.reverse_cons, nonWs_append]
        unfold nonWs
        simp [List.filter_cons]
        split <;> simp

lemma splitLoop_flatten_nonWs {size : ℕ} (step : ℕ) :
    ∀ (sents chunks : List (List Char)) (cur : List Char), (∀ s ∈ sents, s.length ≤ size) →
      nonWs (splitLoop size step chunks cur sents).flatten =
        nonWs chunks.flatten ++ nonWs cur ++ nonWs sents.flatten := by
  intro sents
  induction sents with
  | nil =>
    intro chunks cur _
    unfold splitLoop
    by_cases he : cur.isEmpty
    · have : cur = [] := List.isEmpty_iff.mp he
      simp [he, this, nonWs]
    · simp only [he, Bool.false_eq_true, if_false]
      simp [nonWs_append, nonWs]
  | cons s rest ih =>
    intro chunks cur hlen
    unfold splitLoop
    by_cases h1 : cur.length + s.length ≤ size
    · rw [if_pos h1, ih chunks _ (fun u hu => hlen u (List.mem_cons_of_mem s hu))]
      rw [nonWs_stripChars]
      have hsp : nonWs (cur ++ ' ' :: s) = nonWs cur ++ nonWs s := by
        rw [nonWs_append]
        unfold nonWs
        rw [List.filter_cons]
        simp [isWsC]
      rw [hsp]
      simp [List.flatten_cons, nonWs_append, List.append_assoc]
    · rw [if_neg h1]
      have h2 : ¬ size < s.length := by
        have := hlen s (List.mem_cons_self s rest)
        omega
      rw [if_neg h2, ih _ s (fun u hu => hlen u (List.mem_cons_of_mem s hu))]
      have hflat : nonWs (if cur.isEmpty then chunks else chunks ++ [cur]).flatten =
          nonWs chunks.flatten ++ nonWs cur := by
        by_cases he : cur.isEmpty
        · have : cur = [] := List.isEmpty_iff.mp he
          simp [he, this, nonWs]
        · simp only [he, Bool.false_eq_true, if_false]
          simp [nonWs_append, nonWs]
      rw [hflat]
      simp [List.flatten_cons, nonWs_append, List.append_assoc]

/-- C5 (confirmed): when no sentence unit of the (stripped) text is
longer than `size`, concatenating the chunks of `split_text(text, size, 0)`
reconstructs the text up to whitespace normalization: the sequence of
non-whitespace characters is preserved exactly — nothing is lost and
nothing is duplicated. -/
theorem c5_splitText_reconstructs (text : List Char) (size : ℕ) (hs : 0 < size)
    (h : ∀ u ∈ sentSplit (stripChars text), u.length ≤ size) :
    nonWs (splitText text size 0).flatten = nonWs text := by
  unfold splitText
  by_cases he : text.isEmpty
  · have : text = [] := List.isEmpty_iff.mp he
    simp [he, this, nonWs]
  · simp only [he, Bool.false_eq_true, if_false]
    rw [splitLoop_flatten_nonWs (size - 0) _ [] [] h]
    unfold sentSplit
    rw [sentGo_flatten_nonWs _ false false [] (by simp)]
    have h2 := nonWs_stripChars text
    unfold nonWs at h2
    simp [nonWs, h2]

/-- Witness for `c5_splitText_reconstructs` at a concrete input. -/
theorem c5_witness :
    0 < 800 ∧
      nonWs (splitText "Hello world. Second sentence.".toList 800 0).flatten =
        nonWs "Hello world. Second sentence.".toList :=
  ⟨by decide, c5_splitText_reconstructs "Hello world. Second sentence.".toList 800
    (by decide) (by decide)⟩

/-! ### Decimal rendering is injective (for the chunk-id theorems) -/

lemma toDigitsCore_append : ∀ (n fuel : ℕ) (ds : List Char), n < fuel →
    Nat.toDigitsCore 10 fuel n ds = Nat.toDigits 10 n ++ ds := by
  intro n
  induction n using Nat.strong_induction_on with
  | _ n ih =>
    intro fuel ds hfuel
    match fuel with
    | fuel + 1 =>
      by_cases hn : n / 10 = 0
      · simp [Nat.toDigitsCore, Nat.toDigits, hn]
      · have hn0 : 0 < n := by
          rcases Nat.eq_zero_or_pos n with h | h
          · exact absurd (by simp [h]) hn
          · exact h
        have hdiv : n / 10 < n := Nat.div_lt_self hn0 (by omega)
        simp only [Nat.toDigitsCore, hn, if_false, Nat.toDigits]
        rw [ih (n / 10) hdiv fuel _ (by omega), ih (n / 10) hdiv n _ (by omega)]
        simp

lemma toDigits_split (n : ℕ) (h : ¬ n / 10 = 0) :
    Nat.toDigits 10 n = Nat.toDigits 10 (n / 10) ++ [Nat.digitChar (n % 10)] := by
  have hn0 : 0 < n := by
    rcases Nat.eq_zero_or_pos n with h0 | h0
    · exact absurd (by simp [h0]) h
    · exact h0
  have hdiv : n / 10 < n := Nat.div_lt_self hn0 (by omega)
  unfold Nat.toDigits
  simp only [Nat.toDigitsCore, h, if_false]
  exact toDigitsCore_append (n / 10) n _ (by omega)

lemma decDigitVal_digitChar (k : ℕ) (h : k < 10) : decDigitVal (Nat.digitChar k) = k := by
  interval_cases k <;> decide

lemma parseDec_toDigits : ∀ n : ℕ, parseDecFrom 0 (Nat.toDigits 10 n) = n := by
  intro n
  induction n using Nat.strong_induction_on with
  | _ n ih =>
    by_cases hn : n / 10 = 0
    · have hlt : n < 10 := by omega
      have : Nat.toDigits 10 n = [Nat.digitChar (n % 10)] := by
        simp [Nat.toDigits, Nat.toDigitsCore, hn]
      rw [this, Nat.mod_eq_of_lt hlt]
      have hd := decDigitVal_digitChar n hlt
      simp [parseDecFrom, hd]
    · have hn0 : 0 < n := by
        rcases Nat.eq_zero_or_pos n with h0 | h0
        · exact absurd (by simp [h0]) hn
        · exact h0
      rw [toDigits_split n hn]
      unfold parseDecFrom
      rw [List.foldl_append]
      have hrec := ih (n / 10) (Nat.div_lt_self hn0 (by omega))
      unfold parseDecFrom at hrec
      rw [hrec]
      simp only [List.foldl_cons, List.foldl_nil]
      rw [decDigitVal_digitChar (n % 10) (Nat.mod_lt n (by omega))]
      omega

lemma natRepr_injective : Function.Injective Nat.repr := by
  intro m n h
  have h2 : Nat.toDigits 10 m = Nat.toDigits 10 n := congrArg String.data h
  have := parseDec_toDigits m
  rw [h2, parseDec_toDigits n] at this
  omega

lemma string_append_right_injective (pre : String) :
    Function.Injective (fun s => pre ++ s) := by
  intro s t h
  have h2 : pre.data ++ s.data = pre.data ++ t.data := by
    have := congrArg String.data h
    simpa [String.data_append] using this
  have h3 : s.data = t.data := List.append_cancel_left h2
  have h4 : String.mk s.data = String.mk t.data := by rw [h3]
  exact h4

lemma enum_map_fst_fun {α β : Type} (l : List α) (g : ℕ → β) :
    l.enum.map (fun p => g p.1) = (List.range l.length).map g := by
  have h1 : l.enum.map (fun p => g p.1) = (l.enum.map Prod.fst).map g := by
    rw [List.map_map]
    rfl
  rw [h1, List.enum_map_fst]

/-- C2 (corrected, itemwise part): within the processing of a single
item — one uploaded file or one URL — the generated chunk ids are
pairwise distinct, because the item's name (or the `url_` prefix) and
its timestamp are fixed and the decimal positional index is injective. -/
theorem c2_chunk_ids_itemwise_nodup (parts : List (List Char)) :
    (∀ (name : String) (ts : ℕ), ((fileMetas name ts parts).map MetaRec.chunk_id).Nodup) ∧
    (∀ (u : String) (ts : ℕ), ((urlMetas u ts parts).map MetaRec.chunk_id).Nodup) := by
  have key : ∀ (pre : String),
      ((List.range parts.length).map (fun i => pre ++ toString i)).Nodup := by
    intro pre
    refine List.Nodup.map ?_ (List.nodup_range parts.length)
    intro i j hij
    exact natRepr_injective (string_append_right_injective pre hij)
  constructor
  · intro name ts
    have : (fileMetas name ts parts).map MetaRec.chunk_id =
        (List.range parts.length).map
          (fun i => name ++ "_" ++ toString ts ++ "_" ++ toString i) := by
      unfold fileMetas
      rw [List.map_map]
      exact enum_map_fst_fun parts
        (fun i => name ++ "_" ++ toString ts ++ "_" ++ toString i)
    rw [this]
    exact key (name ++ "_" ++ toString ts ++ "_")
  · intro u ts
    have : (urlMetas u ts parts).map MetaRec.chunk_id =
        (List.range parts.length).map (fun i => "url_" ++ toString ts ++ "_" ++ toString i) := by
      unfold urlMetas
      rw [List.map_map]
      exact enum_map_fst_fun parts
        (fun i => "url_" ++ toString ts ++ "_" ++ toString i)
    rw [this]
    exact key ("url_" ++ toString ts ++ "_")

/-- C2 counterexample: a `POST /ingest/urls` batch with two URLs whose
extractions both succeed and that are processed within the same clock
second produces two records carrying the same chunk id
(`url_<ts>_0`): the "source identifier" of the URL path is the constant
string `url`, and the timestamp is taken per item, not per batch, so
chunk ids are not pairwise distinct across the whole batch. -/
theorem c2_counterexample :
    ¬ ((ingestUrlsMetas
        [⟨"https://a.example", some "Hi.".toList, 1700000000⟩,
         ⟨"https://b.example", some "Yo.".toList, 1700000000⟩]).map MetaRec.chunk_id).Nodup := by
  decide

/-! ### Store lemmas (C3, C4) -/

lemma normalizeRow_length (v : List ℚ) : (normalizeRow v).length = v.length := by
  simp [normalizeRow]

lemma normalizeRows_length (embs : List (List ℚ)) :
    (normalizeRows embs).length = embs.length := by
  simp [normalizeRows]

lemma vecCount_none {st : FaissStore} (h : st.index = none) : st.vecCount = 0 := by
  unfold FaissStore.vecCount
  rw [h]

lemma vecCount_some {st : FaissStore} {ix : FaissIndex} (h : st.index = some ix) :
    st.vecCount = ix.vecs.length := by
  unfold FaissStore.vecCount FaissIndex.ntotal
  rw [h]

lemma initIfNeeded_inv (st : FaissStore) (hinv : storeInv st) (d : ℕ) :
    storeInv (st.initIfNeeded d) := by
  unfold FaissStore.initIfNeeded
  cases h : st.index with
  | none =>
    unfold storeInv at hinv ⊢
    rw [vecCount_none h] at hinv
    simp [FaissStore.vecCount, FaissIndex.ntotal]
    omega
  | some ix => exact hinv

lemma add_inv (st : FaissStore) (hinv : storeInv st) (embs : List (List ℚ))
    (metas : List MetaRec) (hlen : embs.length = metas.length) :
    storeInv (st.add embs metas).1 := by
  unfold FaissStore.add
  by_cases h0 : embs.length == 0
  · simp only [h0, if_true]
    exact hinv
  · simp only [h0, Bool.false_eq_true, if_false]
    generalize hst1 : st.initIfNeeded (embs.headD []).length = st1
    have hinv1 : storeInv st1 := hst1 ▸ initIfNeeded_inv st hinv (embs.headD []).length
    cases hix : st1.index with
    | none => simpa [hix] using hinv1
    | some ix =>
      simp only [hix]
      unfold FaissIndex.addRaw
      by_cases hall : (normalizeRows embs).all (fun v => v.length == ix.d)
      · simp only [hall, if_true]
        unfold storeInv at hinv1 ⊢
        rw [vecCount_some hix] at hinv1
        simp [FaissStore.vecCount, FaissIndex.ntotal, normalizeRows_length]
        omega
      · simp only [hall, Bool.false_eq_true, if_false]
        exact hinv1

/-- C3 (corrected): the invariant `len(vectors) == len(metadata)` is
preserved by `init_if_needed` and by `add` with equal-length arguments
(including when the faiss insertion raises), `save` does not touch the
in-memory state (nor does `search`, which is pure), and `load`
establishes the invariant when both artifacts are absent or when both
are present and agree on the record count.  The original claim fails
only in the case `load` is given exactly one artifact, refuted
separately by the counterexample. -/
theorem c3_invariant_ops (st : FaissStore) (hinv : storeInv st) :
    (∀ d, storeInv (st.initIfNeeded d)) ∧
    (∀ embs metas, embs.length = metas.length → storeInv (st.add embs metas).1) ∧
    st.save = (st.index, st.metadata) ∧
    storeInv (st.load none none) ∧
    (∀ ms ix, ix.vecs.length = ms.length → storeInv (st.load (some ms) (some ix))) := by
  refine ⟨initIfNeeded_inv st hinv, fun embs metas hlen => add_inv st hinv embs metas hlen,
    rfl, hinv, ?_⟩
  intro ms ix h
  unfold FaissStore.load storeInv
  simp [FaissStore.vecCount, FaissIndex.ntotal, h]

/-- C3 counterexample: `load` on a fresh store with the metadata
artifact present (one record) and the index artifact absent leaves one
metadata record against zero stored vectors, violating the invariant —
so the invariant does not survive `load()` when one artifact is
missing. -/
theorem c3_counterexample : ¬ storeInv (freshStore.load (some [mRec0]) none) := by
  decide

/-- Witness for `c3_invariant_ops` at the fresh store. -/
theorem c3_witness :
    storeInv freshStore ∧
    ((∀ d, storeInv (freshStore.initIfNeeded d)) ∧
     (∀ embs metas, embs.length = metas.length → storeInv (freshStore.add embs metas).1) ∧
     freshStore.save = (freshStore.index, freshStore.metadata) ∧
     storeInv (freshStore.load none none) ∧
     (∀ ms ix, ix.vecs.length = ms.length → storeInv (freshStore.load (some ms) (some ix)))) :=
  ⟨by decide, c3_invariant_ops freshStore (by decide)⟩

/-- C4 (confirmed): on a store already initialized with dimension
`ix.d`, calling `add` with nonempty embeddings whose rows have width
`w ≠ ix.d` raises (the faiss dimension assertion, surfaced to the
caller) and leaves the state exactly as it was: the metadata extension
is sequenced after the faiss insertion, so nothing is partially
inserted. -/
theorem c4_add_dimension_mismatch (st : FaissStore) (ix : FaissIndex)
    (embs : List (List ℚ)) (metas : List MetaRec) (w : ℕ)
    (hix : st.index = some ix) (hne : embs ≠ [])
    (hw : ∀ v ∈ embs, v.length = w) (hdiff : w ≠ ix.d) :
    (st.add embs metas).1 = st ∧ (st.add embs metas).2.isSome := by
  have h0 : (embs.length == 0) = false := by
    cases embs with
    | nil => exact absurd rfl hne
    | cons v0 rest => simp
  have hst1 : st.initIfNeeded (embs.headD []).length = st := by
    unfold FaissStore.initIfNeeded
    rw [hix]
  have hall : ((normalizeRows embs).all (fun v => v.length == ix.d)) = false := by
    cases embs with
    | nil => exact absurd rfl hne
    | cons v0 rest =>
      have hv0 : v0.length = w := hw v0 (List.mem_cons_self v0 rest)
      simp [normalizeRows, List.all_cons, normalizeRow_length, hv0, hdiff]
  unfold FaissStore.add
  simp only [h0, Bool.false_eq_true, if_false, hst1, hix]
  unfold FaissIndex.addRaw
  simp [hall]

/-- Witness for `c4_add_dimension_mismatch` at a concrete input. -/
theorem c4_witness :
    (stC4.add [[1, 1, 1]] []).1 = stC4 ∧ (stC4.add [[1, 1, 1]] []).2.isSome :=
  c4_add_dimension_mismatch stC4 ⟨2, [[1, 0]]⟩ [[1, 1, 1]] [] 3 rfl (by decide)
    (by decide) (by decide)

/-! ### Search lemmas (C6, C9) -/

lemma searchLoop_length (metadata : List MetaRec) (raw : List (ℚ × ℤ)) :
    (searchLoop metadata raw).length =
      ((raw.map Prod.snd).filter
        (fun i => decide (0 ≤ i) && decide (i < (metadata.length : ℤ)))).length := by
  induction raw with
  | nil => rfl
  | cons p rest ih =>
    obtain ⟨score, idx⟩ := p
    unfold searchLoop
    by_cases hcond : idx < 0 ∨ (metadata.length : ℤ) ≤ idx
    · rw [dif_pos hcond]
      have hfalse : (decide (0 ≤ idx) && decide (idx < (metadata.length : ℤ))) = false := by
        rcases hcond with h | h <;> simp <;> omega
      simp [List.map_cons, List.filter_cons, hfalse, ih]
    · rw [dif_neg hcond]
      push_neg at hcond
      have htrue : (decide (0 ≤ idx) && decide (idx < (metadata.length : ℤ))) = true := by
        simp
        omega
      simp [List.map_cons, List.filter_cons, htrue, ih]

lemma nodup_int_range_length_le {L : List ℤ} {m : ℕ} (hnd : L.Nodup)
    (hmem : ∀ i ∈ L, 0 ≤ i ∧ i < (m : ℤ)) : L.length ≤ m := by
  have hmap : (L.map Int.toNat).Nodup := by
    refine List.Nodup.map_on ?_ hnd
    intro x hx y hy hxy
    have h1 := hmem x hx
    have h2 := hmem y hy
    omega
  have hsub : (L.map Int.toNat).toFinset ⊆ Finset.range m := by
    intro x hx
    rw [List.mem_toFinset] at hx
    obtain ⟨i, hi, rfl⟩ := List.mem_map.mp hx
    have := hmem i hi
    rw [Finset.mem_range]
    omega
  have hcard := List.toFinset_card_of_nodup hmap
  have hle := Finset.card_le_card hsub
  rw [Finset.card_range, hcard, List.length_map] at hle
  exact hle

lemma searchLoop_length_le (metadata : List MetaRec) (raw : List (ℚ × ℤ))
    (hnodup : ((raw.map Prod.snd).filter (fun i => decide (0 ≤ i))).Nodup) :
    (searchLoop metadata raw).length ≤ metadata.length := by
  rw [searchLoop_length]
  have h1 : (raw.map Prod.snd).filter
        (fun i => decide (0 ≤ i) && decide (i < (metadata.length : ℤ))) =
      ((raw.map Prod.snd).filter (fun i => decide (i < (metadata.length : ℤ)))).filter
        (fun i => decide (0 ≤ i)) :=
    (List.filter_filter _ _).symm
  rw [h1]
  have hsubl := (@List.filter_sublist _ (fun i => decide (i < (metadata.length : ℤ)))
      (raw.map Prod.snd)).filter (fun i => decide (0 ≤ i))
  have hnd := List.Nodup.sublist hsubl hnodup
  apply nodup_int_range_length_le hnd
  intro i hi
  rw [List.mem_filter] at hi
  obtain ⟨hi1, hi2⟩ := hi
  rw [List.mem_filter] at hi1
  obtain ⟨_, hi3⟩ := hi1
  constructor
  · simpa using hi2
  · simpa using hi3

/-- C6 (confirmed): `search` returns `[]` whenever the store is
uninitialized (`index is None`) or holds zero vectors, and under the
faiss output contract (one row of `k` ids, each either `-1` padding or
a valid distinct position) a store holding `m < k` entries yields at
most `m` results. -/
theorem c6_search_result_bounds (st : FaissStore) (raw : List (ℚ × ℤ)) (m k : ℕ)
    (hinv : storeInv st) (hm : st.metadata.length = m) (hmk : m < k)
    (hlen : raw.length = k)
    (hnodup : ((raw.map Prod.snd).filter (fun i => decide (0 ≤ i))).Nodup) :
    (st.search raw).length ≤ m ∧ (st.vecCount = 0 → st.search raw = []) := by
  unfold FaissStore.search
  cases hix : st.index with
  | none => simp
  | some ix =>
    by_cases hz : ix.ntotal == 0
    · simp [hz]
    · constructor
      · simp only [hz, Bool.false_eq_true, if_false]
        rw [← hm]
        exact searchLoop_length_le st.metadata raw hnodup
      · intro h
        rw [vecCount_some hix] at h
        unfold FaissIndex.ntotal at hz
        rw [h] at hz
        exact absurd rfl hz

/-- Witness for `c6_search_result_bounds` at a concrete input: one
stored entry, `k = 2`, faiss returning one valid id and one `-1` pad. -/
theorem c6_witness :
    storeInv stOne ∧
      (stOne.search [(1, 0), (0, -1)]).length ≤ 1 ∧
      (stOne.vecCount = 0 → stOne.search [(1, 0), (0, -1)] = []) :=
  ⟨by decide,
    (c6_search_result_bounds stOne [(1, 0), (0, -1)] 1 2 (by decide) (by decide)
      (by decide) (by decide) (by decide)).1,
    (c6_search_result_bounds stOne [(1, 0), (0, -1)] 1 2 (by decide) (by decide)
      (by decide) (by decide) (by decide)).2⟩

/-- C9 (confirmed): the result loop of `search` is total over arbitrary
(possibly inconsistent) store states — every returned record is a copy
of a metadata entry at an in-range index with its score set, and any
raw faiss id that is negative or at least `len(metadata)` is silently
skipped, so no out-of-range access can occur even when the vector count
and the metadata length disagree. -/
theorem c9_search_skips_invalid_ids (st : FaissStore) (raw : List (ℚ × ℤ)) :
    (∀ r ∈ st.search raw,
      ∃ i : Fin st.metadata.length, ∃ s : ℚ,
        r = { st.metadata.get i with score := some s }) ∧
    (∀ (s : ℚ) (i : ℤ) (rest : List (ℚ × ℤ)), i < 0 ∨ (st.metadata.length : ℤ) ≤ i →
      searchLoop st.metadata ((s, i) :: rest) = searchLoop st.metadata rest) := by
  constructor
  · have hloop : ∀ raw2 : List (ℚ × ℤ), ∀ r ∈ searchLoop st.metadata raw2,
        ∃ i : Fin st.metadata.length, ∃ s : ℚ,
          r = { st.metadata.get i with score := some s } := by
      intro raw2
      induction raw2 with
      | nil => intro r hr; cases hr
      | cons p rest ih =>
        obtain ⟨score, idx⟩ := p
        intro r hr
        unfold searchLoop at hr
        by_cases hcond : idx < 0 ∨ (st.metadata.length : ℤ) ≤ idx
        · rw [dif_pos hcond] at hr
          exact ih r hr
        · rw [dif_neg hcond] at hr
          rcases List.mem_cons.mp hr with rfl | hr2
          · exact ⟨⟨idx.toNat, by push_neg at hcond; omega⟩, score, rfl⟩
          · exact ih r hr2
    intro r hr
    unfold FaissStore.search at hr
    rcases hix : st.index with _ | ix
    · rw [hix] at hr
      cases hr
    · rw [hix] at hr
      by_cases hz : ix.ntotal == 0
      · simp [hz] at hr
      · simp only [hz, Bool.false_eq_true, if_false] at hr
        exact hloop raw r hr
  · intro s i rest h
    rw [searchLoop.eq_def]
    exact dif_pos h

/-- Witness for `c9_search_skips_invalid_ids` at a concrete input:
an inconsistent store (two vectors, one record) with faiss ids 0, -1
and 5. -/
theorem c9_witness :
    (∀ r ∈ (FaissStore.mk (some ⟨2, [[1, 0], [0, 1]]⟩) [mRec0] (some 2)).search
        [(1, 0), (0, -1), (0, 5)],
      ∃ i : Fin (FaissStore.mk (some ⟨2, [[1, 0], [0, 1]]⟩) [mRec0] (some 2)).metadata.length,
        ∃ s : ℚ,
          r = { (FaissStore.mk (some ⟨2, [[1, 0], [0, 1]]⟩) [mRec0] (some 2)).metadata.get i
                  with score := some s }) ∧
    searchLoop [mRec0] ((0, 5) :: [] ) = searchLoop [mRec0] [] :=
  ⟨(c9_search_skips_invalid_ids (FaissStore.mk (some ⟨2, [[1, 0], [0, 1]]⟩) [mRec0] (some 2))
      [(1, 0), (0, -1), (0, 5)]).1,
    (c9_search_skips_invalid_ids (FaissStore.mk (some ⟨2, [[1, 0], [0, 1]]⟩) [mRec0] (some 2))
      [(1, 0), (0, -1), (0, 5)]).2 0 5 [] (by decide)⟩

/-- C7 (confirmed): `POST /query` answers HTTP 400 ("Query missing")
exactly when the query text is empty, and on every call — validation
failure or success — the store is returned unmutated: the handler and
`search` only read it, and results are fresh copies of stored records
annotated with a score (see `c9_search_skips_invalid_ids`). -/
theorem c7_query_validation_readonly (st : FaissStore) (q : List Char)
    (raw : List (ℚ × ℤ)) :
    ((queryEndpoint st q raw).1 = QueryOutcome.badRequest 400 "Query missing" ↔ q = []) ∧
    (queryEndpoint st q raw).2 = st := by
  unfold queryEndpoint
  by_cases he : q.isEmpty
  · have hq : q = [] := List.isEmpty_iff.mp he
    simp [he, hq]
  · have hq : ¬ q = [] := fun h => he (by simp [h])
    simp [he, hq]

/-! ### GET /meta (C8) -/

/-- C8 (corrected): for every requested `n ≥ 1`, `GET /meta` returns
the total record count together with the `n` most recently added
records, newest first (all records when fewer than `n` exist).  The
original claim over every integer `n` fails at `n = 0`, where the
Python slice `metadata[-n:]` is the whole list, so every record is
returned rather than none (see the counterexample). -/
theorem c8_meta_recent_first (st : FaissStore) (n : ℤ) (hn : 1 ≤ n) :
    getMeta st n = (st.metadata.length, st.metadata.reverse.take n.toNat) := by
  unfold getMeta pyTailSlice
  have hneg : ¬ (0 ≤ -n) := by omega
  rw [if_neg hneg]
  simp only [neg_neg]
  rw [List.take_reverse]

/-- C8 counterexample: with one stored record and requested `n = 0`,
the endpoint returns that record (the slice `metadata[-0:]` is the
whole list), while the claim demands exactly zero items. -/
theorem c8_counterexample :
    (getMeta ⟨none, [mRec0], none⟩ 0).2 ≠
      (FaissStore.mk none [mRec0] none).metadata.reverse.take (0 : ℤ).toNat := by
  decide

/-- Witness for `c8_meta_recent_first` at a concrete input. -/
theorem c8_witness :
    (1 : ℤ) ≤ 1 ∧
      getMeta ⟨none, [mRec0], none⟩ 1 =
        ((FaissStore.mk none [mRec0] none).metadata.length,
          (FaissStore.mk none [mRec0] none).metadata.reverse.take (1 : ℤ).toNat) :=
  ⟨by decide, c8_meta_recent_first ⟨none, [mRec0], none⟩ 1 (by decide)⟩

/-! ### Text extraction for plain files (C10) -/

/-- C10 (confirmed): an uploaded file whose lowercased name ends in
neither `.pdf` nor `.csv` always yields the text
`b.decode("utf-8", errors="ignore")` — a total function of the raw
bytes, so extraction on this path never raises — and a byte that
cannot start any UTF-8 sequence (`0x80`–`0xC1` or `0xF5`–`0xFF`) is
dropped rather than producing an error. -/
theorem c10_plain_text_decode_total (name : List Char) (b : List (Fin 256))
    (hp : ".pdf".toList.isSuffixOf (name.map Char.toLower) = false)
    (hc : ".csv".toList.isSuffixOf (name.map Char.toLower) = false) :
    ingestTextFor name b = some (utf8DecodeIgnore b) ∧
    (∀ (x : Fin 256) (rest : List (Fin 256)),
      (0x80 ≤ x.val ∧ x.val ≤ 0xC1) ∨ 0xF5 ≤ x.val →
      utf8DecodeIgnore (x :: rest) = utf8DecodeIgnore rest) := by
  constructor
  · unfold ingestTextFor
    rw [hp, hc]
    simp
  · intro x rest h
    have h1 : ¬ (x.val < 0x80) := by omega
    have h2 : ¬ (0xC2 ≤ x.val ∧ x.val ≤ 0xDF) := by omega
    have h3 : ¬ (0xE0 ≤ x.val ∧ x.val ≤ 0xEF) := by omega
    have h4 : ¬ (0xF0 ≤ x.val ∧ x.val ≤ 0xF4) := by omega
    rw [utf8DecodeIgnore.eq_def]
    simp only [if_neg h1, if_neg h2, if_neg h3, if_neg h4]

/-- Witness for `c10_plain_text_decode_total` at a concrete input: the
file `notes.txt` with an invalid byte `0xFF` embedded in ASCII text. -/
theorem c10_witness :
    (ingestTextFor "notes.txt".toList [72, 0xFF, 105] =
        some (utf8DecodeIgnore [72, 0xFF, 105]) ∧
      (∀ (x : Fin 256) (rest : List (Fin 256)),
        (0x80 ≤ x.val ∧ x.val ≤ 0xC1) ∨ 0xF5 ≤ x.val →
        utf8DecodeIgnore (x :: rest) = utf8DecodeIgnore rest)) :=
  c10_plain_text_decode_total "notes.txt".toList [72, 0xFF, 105] (by decide) (by decide)

end Backend
